import Mathlib

/-!
Shallow embedding of `png2tileset` (src/src/main.rs).

The whole program is the single function `run` (main.rs lines 25–115):
divisibility checks on the input image, tile extraction interleaved with
first-occurrence deduplication, a nested-loop canvas dimension search, then
row-major compositing of the distinct tiles onto a fresh canvas via
`imageops::overlay`.  File I/O, PNG decoding/encoding and CLI parsing are
external collaborators; the decoded source image is embedded as its width,
height and a pixel accessor function.
-/

namespace Png2Tileset

/-- A color is an opaque pixel value (`Rgba<u8>` in the source), compared for
exact equality only. -/
abbrev Color := Nat

/-- The zero-initialized pixel of a fresh `ImageBuffer::new` (fully
transparent `[0,0,0,0]`). -/
def defaultColor : Color := 0

/-- A tile: the `tile_size × tile_size` `ImageBuffer` built in the extraction
loop, represented as its rows (outer index `y`) of pixels (inner index `x`).
Two `ImageBuffer`s of equal dimensions are `==` in Rust iff all pixels match,
which for this representation is list equality. -/
abbrev Tile := List (List Color)

/-- Pixel `(x, y)` of a tile (total, with a default out of range; all uses in
the development stay in range).  Mirrors `tile.get_pixel(x, y)`. -/
def tilePixel (t : Tile) (x y : Nat) : Color :=
  (t.getD y []).getD x defaultColor

/-- main.rs 56–66: the tile cut from the source at tile coordinates
`(xTile, yTile)`; its pixel `(x, y)` is the source pixel
`(x + xTile*ts, y + yTile*ts)`.  (The Rust loop fills column by column, but
`put_pixel` is position-addressed, so the resulting buffer is the same.) -/
def extractTile (img : Nat → Nat → Color) (ts xTile yTile : Nat) : Tile :=
  (List.range ts).map fun y => (List.range ts).map fun x =>
    img (x + xTile * ts) (y + yTile * ts)

/-- main.rs 54–55: all tiles in visit order — `y_tile` outer (top to bottom),
`x_tile` inner (left to right), i.e. row-major. -/
def extractTiles (img : Nat → Nat → Color) (ts xCount yCount : Nat) :
    List Tile :=
  (List.range yCount).flatMap fun yTile =>
    (List.range xCount).map fun xTile => extractTile img ts xTile yTile

/-- main.rs 68–70: `if !res.contains(&inner) { res.push(inner) }`. -/
def insertIfNew (acc : List Tile) (t : Tile) : List Tile :=
  if t ∈ acc then acc else acc ++ [t]

/-- The deduplication: the extraction loop's `res` equals this fold over the
extracted sequence, because each tile is tested against the tiles pushed so
far, in visit order. -/
def dedupTiles (l : List Tile) : List Tile :=
  l.foldl insertIfNew []

/-- Recursion companion used to reason about `dedupTiles`: scanning with an
explicit set of already-seen tiles, keeping each tile exactly at its first
occurrence.  `dedupTiles l = firstOccurAux [] l` is proved below. -/
def firstOccurAux (seen : List Tile) : List Tile → List Tile
  | [] => []
  | t :: rest =>
    if t ∈ seen then firstOccurAux seen rest
    else t :: firstOccurAux (t :: seen) rest

/-- The index of the first occurrence of `t` in a list of tiles (used to state
order preservation of the deduplication). -/
def firstIdx (t : Tile) : List Tile → Nat
  | [] => 0
  | u :: rest => if u = t then 0 else firstIdx t rest + 1

/-- The number of occurrences of tile `t` in a list of tiles (used to state
that each extracted tile matches exactly one distinct tile). -/
def countTile (t : Tile) : List Tile → Nat
  | [] => 0
  | u :: rest => (if u = t then 1 else 0) + countTile t rest

/-- main.rs 79–86: the body of the dimension search.  The state is the
current best `(width, height)`; the candidate is
`(height_pretender, width_pretender)`. -/
def dimStep (pixels ts : Nat) (wh : Nat × Nat) (cand : Nat × Nat) :
    Nat × Nat :=
  if pixels * ts ≤ cand.1 * cand.2 ∧ cand.1 % ts = 0 ∧ cand.2 % ts = 0 ∧
      cand.2 + cand.1 < wh.1 + wh.2
  then (cand.2, cand.1) else wh

/-- main.rs 75–88: start from the fallback `(pixels, ts)` and scan
`height_pretender` outer, `width_pretender` inner, both over `0..pixels`. -/
def findDims (pixels ts : Nat) : Nat × Nat :=
  (List.range pixels).foldl
    (fun wh hp =>
      (List.range pixels).foldl
        (fun wh2 wp => dimStep pixels ts wh2 (hp, wp)) wh)
    (pixels, ts)

/-- The candidate pairs `(height_pretender, width_pretender)` in scan order. -/
def scanList (pixels : Nat) : List (Nat × Nat) :=
  (List.range pixels).flatMap fun hp =>
    (List.range pixels).map fun wp => (hp, wp)

/-- A candidate `(hp, wp)` passing the three state-independent conditions of
main.rs 79–81. -/
def goodCand (pixels ts : Nat) (c : Nat × Nat) : Prop :=
  pixels * ts ≤ c.1 * c.2 ∧ c.1 % ts = 0 ∧ c.2 % ts = 0

instance (pixels ts : Nat) (c : Nat × Nat) :
    Decidable (goodCand pixels ts c) := by
  unfold goodCand; infer_instance

/-- main.rs 91–100: the compositing cursor.  Returns the list of
`(x, y, tile)` placements in order: before each tile, if `x` has reached the
canvas width, wrap to the next tile row; place; advance `x`. -/
def placeTiles (ts width : Nat) : Nat → Nat → List Tile →
    List (Nat × Nat × Tile)
  | _, _, [] => []
  | x, y, t :: rest =>
    let x' := if x = width then 0 else x
    let y' := if x = width then y + ts else y
    (x', y', t) :: placeTiles ts width (x' + ts) y' rest

/-- Modelled from the spec: the per-pixel effect of one
`imageops::overlay(&mut result_image, tile, x, y)` call (main.rs 98).  The
implementation of `image::imageops::overlay` is a third-party function whose
code is not part of this repository's sources; the spec describes it as
writing the tile's pixels over the destination (“standard opaque overlay —
tile pixels fully replace destination”), clipped to the canvas bounds, and
touching nothing outside the tile's `ts × ts` region. -/
def overlayTile (ts w h : Nat) (canvas : Nat → Nat → Color)
    (x y : Nat) (t : Tile) : Nat → Nat → Color :=
  fun px py =>
    if px < w ∧ py < h ∧ x ≤ px ∧ px < x + ts ∧ y ≤ py ∧ py < y + ts
    then tilePixel t (px - x) (py - y)
    else canvas px py

/-- main.rs 90–100: the canvas after all placements, as a pixel function,
starting from the zero-initialized `ImageBuffer::new(width, height)`. -/
def compositeCanvas (ts w h : Nat) (placements : List (Nat × Nat × Tile)) :
    Nat → Nat → Color :=
  placements.foldl
    (fun canvas p => overlayTile ts w h canvas p.1 p.2.1 p.2.2)
    (fun _ _ => defaultColor)

/-- How a pipeline run can fail.  `divByZeroPanic` models the Rust panic of
`image.width() % tile_size` when `tile_size = 0` (main.rs 37): the process
aborts rather than returning an error value. -/
inductive RunError where
  | divByZeroPanic
  | widthNotMultiple
  | heightNotMultiple
deriving DecidableEq, Repr

/-- Everything the successful pipeline produces. -/
structure RunOutput where
  width : Nat
  height : Nat
  distinctTiles : List Tile
  placements : List (Nat × Nat × Tile)
  canvas : Nat → Nat → Color

/-- main.rs 25–114, `run` up to the point where the canvas is handed to the
PNG encoder (`result_image.save`, an external collaborator).  The checks are
in source order: the `%` computations panic if `ts = 0`, otherwise the width
check (main.rs 37) precedes the height check (main.rs 43); only when both
pass does any extraction, deduplication, packing or compositing happen. -/
def run (imgW imgH : Nat) (img : Nat → Nat → Color) (ts : Nat) :
    Except RunError RunOutput :=
  if ts = 0 then .error .divByZeroPanic
  else if imgW % ts ≠ 0 then .error .widthNotMultiple
  else if imgH % ts ≠ 0 then .error .heightNotMultiple
  else
    let res := dedupTiles (extractTiles img ts (imgW / ts) (imgH / ts))
    let pixels := res.length * ts
    let wh := findDims pixels ts
    let placements := placeTiles ts wh.1 0 0 res
    .ok ⟨wh.1, wh.2, res, placements, compositeCanvas ts wh.1 wh.2 placements⟩

/-! ## Deduplication (claim C1) -/

lemma mem_insertIfNew {acc : List Tile} {t x : Tile} :
    x ∈ insertIfNew acc t ↔ x ∈ acc ∨ x = t := by
  unfold insertIfNew
  split
  · rename_i h
    constructor
    · exact Or.inl
    · rintro (hx | rfl)
      · exact hx
      · exact h
  · simp

lemma foldl_insertIfNew_mem :
    ∀ (l acc : List Tile) (x : Tile),
      x ∈ l.foldl insertIfNew acc ↔ x ∈ acc ∨ x ∈ l
  | [], acc, x => by simp
  | t :: rest, acc, x => by
    rw [List.foldl_cons, foldl_insertIfNew_mem rest (insertIfNew acc t) x]
    rw [mem_insertIfNew]
    simp [List.mem_cons, or_assoc]

lemma nodup_insertIfNew {acc : List Tile} {t : Tile} (h : acc.Nodup) :
    (insertIfNew acc t).Nodup := by
  unfold insertIfNew
  split
  · exact h
  · rename_i ht
    simp [List.nodup_append, h, ht]

lemma foldl_insertIfNew_nodup :
    ∀ (l acc : List Tile), acc.Nodup → (l.foldl insertIfNew acc).Nodup
  | [], _, h => h
  | _ :: rest, _, h => foldl_insertIfNew_nodup rest _ (nodup_insertIfNew h)

lemma foldl_insertIfNew_eq_firstOccurAux :
    ∀ (l acc seen : List Tile), (∀ x, x ∈ acc ↔ x ∈ seen) →
      l.foldl insertIfNew acc = acc ++ firstOccurAux seen l
  | [], acc, seen, _ => by simp [firstOccurAux]
  | t :: rest, acc, seen, h => by
    rw [List.foldl_cons]
    unfold firstOccurAux
    by_cases ht : t ∈ seen
    · have hstep : insertIfNew acc t = acc := by
        unfold insertIfNew
        rw [if_pos ((h t).mpr ht)]
      rw [hstep, if_pos ht]
      exact foldl_insertIfNew_eq_firstOccurAux rest acc seen h
    · have hstep : insertIfNew acc t = acc ++ [t] := by
        unfold insertIfNew
        rw [if_neg (fun hc => ht ((h t).mp hc))]
      rw [hstep, if_neg ht]
      rw [foldl_insertIfNew_eq_firstOccurAux rest (acc ++ [t]) (t :: seen)
        (by intro x; simp [h x, or_comm])]
      simp

lemma dedupTiles_eq_firstOccurAux (l : List Tile) :
    dedupTiles l = firstOccurAux [] l := by
  simpa [dedupTiles] using
    foldl_insertIfNew_eq_firstOccurAux l [] [] (by simp)

lemma mem_firstOccurAux :
    ∀ (l seen : List Tile) (x : Tile),
      x ∈ firstOccurAux seen l ↔ x ∈ l ∧ x ∉ seen
  | [], seen, x => by simp [firstOccurAux]
  | t :: rest, seen, x => by
    unfold firstOccurAux
    by_cases ht : t ∈ seen
    · rw [if_pos ht, mem_firstOccurAux rest seen x]
      constructor
      · rintro ⟨hr, hs⟩
        exact ⟨List.mem_cons_of_mem _ hr, hs⟩
      · rintro ⟨hl, hs⟩
        rcases List.mem_cons.mp hl with rfl | hr
        · exact absurd ht hs
        · exact ⟨hr, hs⟩
    · rw [if_neg ht, List.mem_cons, mem_firstOccurAux rest (t :: seen) x]
      by_cases hxt : x = t
      · subst hxt
        simp [ht]
      · simp [List.mem_cons, hxt]

lemma firstIdx_cons_self (t : Tile) (l : List Tile) :
    firstIdx t (t :: l) = 0 := by
  simp [firstIdx]

lemma firstIdx_cons_ne {t u : Tile} (l : List Tile) (h : u ≠ t) :
    firstIdx t (u :: l) = firstIdx t l + 1 := by
  simp [firstIdx, h]

lemma pairwise_firstIdx_firstOccurAux :
    ∀ (l seen : List Tile),
      (firstOccurAux seen l).Pairwise
        (fun a b => firstIdx a l < firstIdx b l)
  | [], seen => by simp [firstOccurAux]
  | t :: rest, seen => by
    unfold firstOccurAux
    by_cases ht : t ∈ seen
    · rw [if_pos ht]
      refine (pairwise_firstIdx_firstOccurAux rest seen).imp_of_mem ?_
      intro a b ha hb hab
      have ha2 := ((mem_firstOccurAux rest seen a).mp ha).2
      have hb2 := ((mem_firstOccurAux rest seen b).mp hb).2
      rw [firstIdx_cons_ne rest (fun h => ha2 (by rw [← h]; exact ht)),
        firstIdx_cons_ne rest (fun h => hb2 (by rw [← h]; exact ht))]
      exact Nat.succ_lt_succ hab
    · rw [if_neg ht, List.pairwise_cons]
      constructor
      · intro b hb
        have hb2 := ((mem_firstOccurAux rest (t :: seen) b).mp hb).2
        have htb : t ≠ b := fun h => hb2 (by rw [← h]; exact List.mem_cons_self t seen)
        rw [firstIdx_cons_self, firstIdx_cons_ne rest htb]
        exact Nat.succ_pos _
      · refine (pairwise_firstIdx_firstOccurAux rest (t :: seen)).imp_of_mem ?_
        intro a b ha hb hab
        have ha2 := ((mem_firstOccurAux rest (t :: seen) a).mp ha).2
        have hb2 := ((mem_firstOccurAux rest (t :: seen) b).mp hb).2
        rw [firstIdx_cons_ne rest
            (fun h => ha2 (by rw [← h]; exact List.mem_cons_self t seen)),
          firstIdx_cons_ne rest
            (fun h => hb2 (by rw [← h]; exact List.mem_cons_self t seen))]
        exact Nat.succ_lt_succ hab

lemma dedupTiles_nodup (l : List Tile) : (dedupTiles l).Nodup :=
  foldl_insertIfNew_nodup l [] List.nodup_nil

lemma mem_dedupTiles {l : List Tile} {x : Tile} :
    x ∈ dedupTiles l ↔ x ∈ l := by
  rw [dedupTiles, foldl_insertIfNew_mem]
  simp

lemma dedupTiles_pairwise_firstIdx (l : List Tile) :
    (dedupTiles l).Pairwise
      (fun a b => firstIdx a l < firstIdx b l) := by
  rw [dedupTiles_eq_firstOccurAux]
  exact pairwise_firstIdx_firstOccurAux l []

/-! ## Tile extraction (claim C2) -/

lemma tilePixel_extractTile (img : Nat → Nat → Color) (ts a b x y : Nat)
    (hx : x < ts) (hy : y < ts) :
    tilePixel (extractTile img ts a b) x y = img (x + a * ts) (y + b * ts) := by
  unfold tilePixel extractTile
  have hrow : (List.map
      (fun y => List.map (fun x => img (x + a * ts) (y + b * ts))
        (List.range ts)) (List.range ts)).getD y [] =
      List.map (fun x => img (x + a * ts) (y + b * ts)) (List.range ts) := by
    rw [List.getD_eq_getElem?_getD, List.getElem?_map, List.getElem?_range hy]
    simp
  rw [hrow, List.getD_eq_getElem?_getD, List.getElem?_map,
    List.getElem?_range hx]
  simp

lemma extractTile_length (img : Nat → Nat → Color) (ts a b : Nat) :
    (extractTile img ts a b).length = ts := by
  simp [extractTile]

lemma extractTile_row_length (img : Nat → Nat → Color) (ts a b : Nat) :
    ∀ row ∈ extractTile img ts a b, row.length = ts := by
  intro row hrow
  simp only [extractTile, List.mem_map, List.mem_range] at hrow
  obtain ⟨y, -, rfl⟩ := hrow
  simp

lemma extractTile_eq_of_pixels (img : Nat → Nat → Color) (ts : Nat)
    {a b c d : Nat}
    (hp : ∀ x, x < ts → ∀ y, y < ts →
      img (x + a * ts) (y + b * ts) = img (x + c * ts) (y + d * ts)) :
    extractTile img ts a b = extractTile img ts c d := by
  unfold extractTile
  apply List.ext_getElem (by simp)
  intro y hy1 hy2
  simp only [List.getElem_map, List.getElem_range]
  apply List.ext_getElem (by simp)
  intro x hx1 hx2
  simp only [List.getElem_map, List.getElem_range]
  exact hp x (by simpa using hx1) y (by simpa using hy1)

lemma mem_extractTiles {img : Nat → Nat → Color} {ts xc yc : Nat} {t : Tile}
    (h : t ∈ extractTiles img ts xc yc) :
    ∃ a b, a < xc ∧ b < yc ∧ t = extractTile img ts a b := by
  simp only [extractTiles, List.mem_flatMap, List.mem_map, List.mem_range] at h
  obtain ⟨b, hb, a, ha, rfl⟩ := h
  exact ⟨a, b, ha, hb, rfl⟩

lemma extractTiles_succ (img : Nat → Nat → Color) (ts xc yc : Nat) :
    extractTiles img ts xc (yc + 1) =
      extractTiles img ts xc yc ++
        (List.range xc).map (fun a => extractTile img ts a yc) := by
  unfold extractTiles
  rw [List.range_succ, List.flatMap_append]
  simp

lemma extractTiles_length (img : Nat → Nat → Color) (ts xc : Nat) :
    ∀ yc, (extractTiles img ts xc yc).length = xc * yc
  | 0 => by simp [extractTiles]
  | yc + 1 => by
    rw [extractTiles_succ, List.length_append,
      extractTiles_length img ts xc yc]
    simp [Nat.mul_succ]

lemma extractTiles_getElem? (img : Nat → Nat → Color) (ts xc : Nat) :
    ∀ (yc i : Nat), i < xc * yc →
      (extractTiles img ts xc yc)[i]? =
        some (extractTile img ts (i % xc) (i / xc))
  | 0, i, hi => by omega
  | yc + 1, i, hi => by
    have hxc : 0 < xc := by
      rcases Nat.eq_zero_or_pos xc with rfl | h
      · omega
      · exact h
    rw [extractTiles_succ, List.getElem?_append]
    rw [extractTiles_length img ts xc yc]
    by_cases hlt : i < xc * yc
    · rw [if_pos hlt]
      exact extractTiles_getElem? img ts xc yc i hlt
    · rw [if_neg hlt]
      have hr : i - xc * yc < xc := by
        rw [Nat.mul_succ] at hi
        omega
      rw [List.getElem?_map, List.getElem?_range hr]
      have hi2 : i = xc * (i / xc) + i % xc := (Nat.div_add_mod i xc).symm
      have hdiv : i / xc = yc := by
        have hii : i < (yc + 1) * xc := by rw [Nat.mul_comm]; exact hi
        have h1 : i / xc < yc + 1 := (Nat.div_lt_iff_lt_mul hxc).mpr hii
        have hge : yc * xc ≤ i := by rw [Nat.mul_comm]; omega
        have h2 : yc ≤ i / xc := (Nat.le_div_iff_mul_le hxc).mpr hge
        omega
      have hmod : i % xc = i - xc * yc := by
        rw [hdiv] at hi2
        omega
      rw [hmod, hdiv]
      rfl

/-! ## Dimension search (claims C3, C4) -/

lemma dimStep_eq (pixels ts : Nat) (wh cand : Nat × Nat) :
    dimStep pixels ts wh cand =
      if goodCand pixels ts cand ∧ cand.2 + cand.1 < wh.1 + wh.2
      then (cand.2, cand.1) else wh := by
  simp only [dimStep, goodCand, and_assoc]

lemma foldl_flatMap {α β σ : Type} (g : α → List β) (f : σ → β → σ) :
    ∀ (l : List α) (init : σ),
      (l.flatMap g).foldl f init =
        l.foldl (fun s a => (g a).foldl f s) init
  | [], _ => rfl
  | a :: l, init => by
    rw [List.flatMap_cons, List.foldl_append, List.foldl_cons]
    exact foldl_flatMap g f l _

lemma findDims_eq_foldl_scanList (pixels ts : Nat) :
    findDims pixels ts =
      (scanList pixels).foldl (dimStep pixels ts) (pixels, ts) := by
  unfold findDims scanList
  rw [foldl_flatMap]
  simp only [List.foldl_map]

lemma mem_scanList (pixels : Nat) (c : Nat × Nat) :
    c ∈ scanList pixels ↔ c.1 < pixels ∧ c.2 < pixels := by
  unfold scanList
  simp only [List.mem_flatMap, List.mem_map, List.mem_range]
  constructor
  · rintro ⟨hp, hhp, wp, hwp, rfl⟩
    exact ⟨hhp, hwp⟩
  · rintro ⟨h1, h2⟩
    exact ⟨c.1, h1, c.2, h2, rfl⟩

/-- The running-best fold: the result never has a larger width+height sum
than the start state, is a lower bound of the sums of all good scanned
candidates, and either is the start state or is the first good candidate in
scan order realizing the final (strictly improved) sum. -/
lemma dimSearch_spec (pixels ts : Nat) :
    ∀ (rest : List (Nat × Nat)) (s : Nat × Nat),
      ((rest.foldl (dimStep pixels ts) s).1 +
          (rest.foldl (dimStep pixels ts) s).2 ≤ s.1 + s.2) ∧
      (∀ c ∈ rest, goodCand pixels ts c →
        (rest.foldl (dimStep pixels ts) s).1 +
          (rest.foldl (dimStep pixels ts) s).2 ≤ c.2 + c.1) ∧
      (rest.foldl (dimStep pixels ts) s = s ∨
        ∃ l1 c l2, rest = l1 ++ c :: l2 ∧ goodCand pixels ts c ∧
          rest.foldl (dimStep pixels ts) s = (c.2, c.1) ∧
          (rest.foldl (dimStep pixels ts) s).1 +
            (rest.foldl (dimStep pixels ts) s).2 < s.1 + s.2 ∧
          ∀ d ∈ l1, goodCand pixels ts d →
            (rest.foldl (dimStep pixels ts) s).1 +
              (rest.foldl (dimStep pixels ts) s).2 < d.2 + d.1)
  | [], s => by
    refine ⟨Nat.le_refl _, ?_, Or.inl rfl⟩
    intro c hc
    exact absurd hc (List.not_mem_nil c)
  | c :: cs, s => by
    rw [List.foldl_cons]
    by_cases hcond : goodCand pixels ts c ∧ c.2 + c.1 < s.1 + s.2
    · have hstep : dimStep pixels ts s c = (c.2, c.1) := by
        rw [dimStep_eq, if_pos hcond]
      rw [hstep]
      obtain ⟨ih1, ih2, ih3⟩ := dimSearch_spec pixels ts cs (c.2, c.1)
      have hsum : (cs.foldl (dimStep pixels ts) (c.2, c.1)).1 +
          (cs.foldl (dimStep pixels ts) (c.2, c.1)).2 ≤ c.2 + c.1 := ih1
      refine ⟨Nat.le_trans hsum (Nat.le_of_lt hcond.2), ?_, ?_⟩
      · intro d hd hgood
        rcases List.mem_cons.mp hd with rfl | hd2
        · exact hsum
        · exact ih2 d hd2 hgood
      · rcases ih3 with heq | ⟨l1, d, l2, hdec, hgood, hval, hlt, hmin⟩
        · refine Or.inr ⟨[], c, cs, by simp, hcond.1, heq, ?_, ?_⟩
          · rw [heq]; exact hcond.2
          · intro d hd
            exact absurd hd (List.not_mem_nil d)
        · refine Or.inr ⟨c :: l1, d, l2, by rw [hdec]; rfl, hgood, hval, ?_, ?_⟩
          · exact Nat.lt_trans hlt hcond.2
          · intro e he hge
            rcases List.mem_cons.mp he with rfl | he2
            · simpa using hlt
            · exact hmin e he2 hge
    · have hstep : dimStep pixels ts s c = s := by
        rw [dimStep_eq, if_neg hcond]
      rw [hstep]
      obtain ⟨ih1, ih2, ih3⟩ := dimSearch_spec pixels ts cs s
      refine ⟨ih1, ?_, ?_⟩
      · intro d hd hgood
        rcases List.mem_cons.mp hd with rfl | hd2
        · have : ¬ d.2 + d.1 < s.1 + s.2 := fun hlt => hcond ⟨hgood, hlt⟩
          omega
        · exact ih2 d hd2 hgood
      · rcases ih3 with heq | ⟨l1, d, l2, hdec, hgood, hval, hlt, hmin⟩
        · exact Or.inl heq
        · refine Or.inr ⟨c :: l1, d, l2, by rw [hdec]; rfl, hgood, hval, hlt, ?_⟩
          intro e he hge
          rcases List.mem_cons.mp he with rfl | he2
          · have : ¬ e.2 + e.1 < s.1 + s.2 := fun h2 => hcond ⟨hge, h2⟩
            omega
          · exact hmin e he2 hge

/-- States reachable by the search keep any property that holds initially and
for every flipped good candidate. -/
lemma foldl_dimStep_invariant (pixels ts : Nat) (P : Nat × Nat → Prop)
    (hgood : ∀ c, goodCand pixels ts c → P (c.2, c.1)) :
    ∀ (l : List (Nat × Nat)) (s : Nat × Nat), P s →
      P (l.foldl (dimStep pixels ts) s)
  | [], _, hs => hs
  | c :: cs, s, hs => by
    rw [List.foldl_cons]
    refine foldl_dimStep_invariant pixels ts P hgood cs _ ?_
    rw [dimStep_eq]
    split
    · rename_i hcond
      exact hgood c hcond.1
    · exact hs

/-- The chosen dimensions are tile-aligned and satisfy the area check
`pixels * ts ≤ width * height` (for `pixels = n * ts` this is
`n * ts² ≤ width * height`). -/
lemma findDims_props (n ts : Nat) :
    (findDims (n * ts) ts).1 % ts = 0 ∧
    (findDims (n * ts) ts).2 % ts = 0 ∧
    n * ts * ts ≤ (findDims (n * ts) ts).1 * (findDims (n * ts) ts).2 := by
  rw [findDims_eq_foldl_scanList]
  refine foldl_dimStep_invariant (n * ts) ts
    (fun s => s.1 % ts = 0 ∧ s.2 % ts = 0 ∧ n * ts * ts ≤ s.1 * s.2)
    ?_ (scanList (n * ts)) (n * ts, ts) ?_
  · rintro c ⟨harea, h1, h2⟩
    exact ⟨h2, h1, by rw [Nat.mul_comm c.2 c.1]; exact harea⟩
  · exact ⟨Nat.mul_mod_left n ts, Nat.mod_self ts, Nat.le_refl _⟩

/-! ## Row-major placement (claims C5, C6, C7) -/

lemma placeTiles_length (ts width : Nat) :
    ∀ (x y : Nat) (tiles : List Tile),
      (placeTiles ts width x y tiles).length = tiles.length
  | _, _, [] => rfl
  | x, y, t :: rest => by
    simp only [placeTiles, List.length_cons]
    rw [placeTiles_length]

lemma placeTiles_cons (ts width x y : Nat) (t : Tile) (rest : List Tile) :
    placeTiles ts width x y (t :: rest) =
      ((if x = width then 0 else x), (if x = width then y + ts else y), t) ::
        placeTiles ts width ((if x = width then 0 else x) + ts)
          (if x = width then y + ts else y) rest := rfl

/-- Closed form for the compositing cursor on a tile-aligned canvas of width
`k * ts`: starting from cursor `(r * ts, q * ts)` with `r ≤ k`, the `i`-th
tile lands at column `(q*k + r + i) % k` and row `(q*k + r + i) / k` (in
tile units). -/
lemma placeTiles_getElem? (ts k : Nat) (hts : 0 < ts) (hk : 0 < k) :
    ∀ (tiles : List Tile) (q r i : Nat), r ≤ k →
      (placeTiles ts (k * ts) (r * ts) (q * ts) tiles)[i]? =
        tiles[i]?.map (fun t =>
          (((q * k + r + i) % k) * ts, ((q * k + r + i) / k) * ts, t))
  | [], q, r, i, hr => by simp [placeTiles]
  | t :: rest, q, r, i, hr => by
    by_cases hrk : r = k
    · rw [hrk, placeTiles_cons, if_pos rfl, if_pos rfl]
      cases i with
      | zero =>
        simp only [List.getElem?_cons_zero]
        have he : q * k + k + 0 = (q + 1) * k := by ring
        have h1 : (q * k + k + 0) % k = 0 := by
          rw [he, Nat.mul_mod_left]
        have h2 : (q * k + k + 0) / k = q + 1 := by
          rw [he, Nat.mul_div_cancel _ hk]
        rw [h1, h2]
        simp [Nat.succ_mul]
      | succ j =>
        simp only [List.getElem?_cons_succ]
        have h0 : (0:Nat) + ts = 1 * ts := by ring
        have h1 : q * ts + ts = (q + 1) * ts := by ring
        rw [h0, h1, placeTiles_getElem? ts k hts hk rest (q + 1) 1 j hk]
        have he : (q + 1) * k + 1 + j = q * k + k + (j + 1) := by ring
        rw [he]
    · have hlt : r < k := Nat.lt_of_le_of_ne hr hrk
      have hne : r * ts ≠ k * ts := by
        intro h
        exact hrk (Nat.eq_of_mul_eq_mul_right hts h)
      rw [placeTiles_cons, if_neg hne, if_neg hne]
      cases i with
      | zero =>
        simp only [List.getElem?_cons_zero]
        have he : q * k + r + 0 = k * q + r := by ring
        have h1 : (q * k + r + 0) % k = r := by
          rw [he, Nat.mul_add_mod, Nat.mod_eq_of_lt hlt]
        have h2 : (q * k + r + 0) / k = q := by
          rw [he, Nat.mul_add_div hk, Nat.div_eq_of_lt hlt]
          omega
        rw [h1, h2]
        simp
      | succ j =>
        simp only [List.getElem?_cons_succ]
        have h1 : r * ts + ts = (r + 1) * ts := by ring
        rw [h1, placeTiles_getElem? ts k hts hk rest q (r + 1) j hlt]
        have he : q * k + (r + 1) + j = q * k + r + (j + 1) := by ring
        rw [he]

lemma placeTiles_zero_getElem? (ts k : Nat) (hts : 0 < ts) (hk : 0 < k)
    (tiles : List Tile) (i : Nat) :
    (placeTiles ts (k * ts) 0 0 tiles)[i]? =
      tiles[i]?.map (fun t => ((i % k) * ts, (i / k) * ts, t)) := by
  have h := placeTiles_getElem? ts k hts hk tiles 0 0 i (Nat.zero_le k)
  simpa using h

/-- Two half-open `ts`-intervals starting at multiples of `ts` that share a
point start at the same multiple. -/
lemma grid_cell_eq (ts : Nat) (hts : 0 < ts) {a c p : Nat}
    (h1 : a * ts ≤ p) (h2 : p < a * ts + ts)
    (h3 : c * ts ≤ p) (h4 : p < c * ts + ts) : a = c := by
  have ha1 : a ≤ p / ts := (Nat.le_div_iff_mul_le hts).mpr h1
  have ha2 : p / ts < a + 1 := (Nat.div_lt_iff_lt_mul hts).mpr
    (by rw [Nat.succ_mul]; exact h2)
  have hc1 : c ≤ p / ts := (Nat.le_div_iff_mul_le hts).mpr h3
  have hc2 : p / ts < c + 1 := (Nat.div_lt_iff_lt_mul hts).mpr
    (by rw [Nat.succ_mul]; exact h4)
  omega

/-- Geometry of the chosen canvas, in tile units: the width is a positive
multiple `k * ts`, the height a multiple `j * ts`, and the grid holds all
`n` tiles (`n ≤ k * j`). -/
lemma packing_facts (n ts : Nat) (hts : 0 < ts) (hn : 1 ≤ n) :
    0 < (findDims (n * ts) ts).1 / ts ∧
    ((findDims (n * ts) ts).1 / ts) * ts = (findDims (n * ts) ts).1 ∧
    ((findDims (n * ts) ts).2 / ts) * ts = (findDims (n * ts) ts).2 ∧
    n ≤ ((findDims (n * ts) ts).1 / ts) * ((findDims (n * ts) ts).2 / ts) := by
  obtain ⟨hw, hh, harea⟩ := findDims_props n ts
  have hwd : ((findDims (n * ts) ts).1 / ts) * ts = (findDims (n * ts) ts).1 :=
    Nat.div_mul_cancel (Nat.dvd_of_mod_eq_zero hw)
  have hhd : ((findDims (n * ts) ts).2 / ts) * ts = (findDims (n * ts) ts).2 :=
    Nat.div_mul_cancel (Nat.dvd_of_mod_eq_zero hh)
  have hpos : 0 < (findDims (n * ts) ts).1 * (findDims (n * ts) ts).2 :=
    Nat.lt_of_lt_of_le (Nat.mul_pos (Nat.mul_pos hn hts) hts) harea
  have hwpos : 0 < (findDims (n * ts) ts).1 := by
    rcases Nat.eq_zero_or_pos (findDims (n * ts) ts).1 with h0 | h
    · rw [h0] at hpos; omega
    · exact h
  have hkpos : 0 < (findDims (n * ts) ts).1 / ts := by
    rcases Nat.eq_zero_or_pos ((findDims (n * ts) ts).1 / ts) with h0 | h
    · rw [h0] at hwd
      simp at hwd
      omega
    · exact h
  refine ⟨hkpos, hwd, hhd, ?_⟩
  have hsplit : (((findDims (n * ts) ts).1 / ts) *
        ((findDims (n * ts) ts).2 / ts)) * (ts * ts) =
      (((findDims (n * ts) ts).1 / ts) * ts) *
        (((findDims (n * ts) ts).2 / ts) * ts) := by ring
  rw [hwd, hhd] at hsplit
  have hmul : n * (ts * ts) ≤
      (((findDims (n * ts) ts).1 / ts) * ((findDims (n * ts) ts).2 / ts)) *
        (ts * ts) := by
    rw [hsplit]
    calc n * (ts * ts) = n * ts * ts := by ring
    _ ≤ (findDims (n * ts) ts).1 * (findDims (n * ts) ts).2 := harea
  exact Nat.le_of_mul_le_mul_right hmul (Nat.mul_pos hts hts)

/-- A pixel lying in no placement's tile region is left at the value of the
initial canvas by the compositing fold. -/
lemma foldl_overlayTile_untouched (ts w h : Nat) :
    ∀ (l : List (Nat × Nat × Tile)) (c : Nat → Nat → Color) (px py : Nat),
      (∀ p ∈ l, ¬(p.1 ≤ px ∧ px < p.1 + ts ∧ p.2.1 ≤ py ∧ py < p.2.1 + ts)) →
      l.foldl (fun canvas p => overlayTile ts w h canvas p.1 p.2.1 p.2.2)
        c px py = c px py
  | [], c, px, py, _ => rfl
  | p :: rest, c, px, py, hout => by
    rw [List.foldl_cons]
    rw [foldl_overlayTile_untouched ts w h rest _ px py
      (fun p2 hp2 => hout p2 (List.mem_cons_of_mem p hp2))]
    unfold overlayTile
    rw [if_neg]
    intro hcond
    exact hout p (List.mem_cons_self p rest)
      ⟨hcond.2.2.1, hcond.2.2.2.1, hcond.2.2.2.2.1, hcond.2.2.2.2.2⟩

/-! ## The pipeline `run` (claims C4, C8, C9, C10) -/

lemma run_ts_zero (imgW imgH : Nat) (img : Nat → Nat → Color) :
    run imgW imgH img 0 = Except.error RunError.divByZeroPanic := by
  unfold run
  rw [if_pos rfl]

lemma run_width_error (imgW imgH : Nat) (img : Nat → Nat → Color) (ts : Nat)
    (hts : ts ≠ 0) (hw : imgW % ts ≠ 0) :
    run imgW imgH img ts = Except.error RunError.widthNotMultiple := by
  unfold run
  rw [if_neg hts, if_pos hw]

lemma run_height_error (imgW imgH : Nat) (img : Nat → Nat → Color) (ts : Nat)
    (hts : ts ≠ 0) (hw : imgW % ts = 0) (hh : imgH % ts ≠ 0) :
    run imgW imgH img ts = Except.error RunError.heightNotMultiple := by
  unfold run
  rw [if_neg hts, if_neg (not_not_intro hw), if_pos hh]

lemma run_ok (imgW imgH : Nat) (img : Nat → Nat → Color) (ts : Nat)
    (hts : ts ≠ 0) (hw : imgW % ts = 0) (hh : imgH % ts = 0) :
    run imgW imgH img ts = Except.ok
      ⟨(findDims ((dedupTiles
            (extractTiles img ts (imgW / ts) (imgH / ts))).length * ts) ts).1,
        (findDims ((dedupTiles
            (extractTiles img ts (imgW / ts) (imgH / ts))).length * ts) ts).2,
        dedupTiles (extractTiles img ts (imgW / ts) (imgH / ts)),
        placeTiles ts
          (findDims ((dedupTiles
            (extractTiles img ts (imgW / ts) (imgH / ts))).length * ts) ts).1
          0 0 (dedupTiles (extractTiles img ts (imgW / ts) (imgH / ts))),
        compositeCanvas ts
          (findDims ((dedupTiles
            (extractTiles img ts (imgW / ts) (imgH / ts))).length * ts) ts).1
          (findDims ((dedupTiles
            (extractTiles img ts (imgW / ts) (imgH / ts))).length * ts) ts).2
          (placeTiles ts
            (findDims ((dedupTiles
              (extractTiles img ts (imgW / ts) (imgH / ts))).length * ts) ts).1
            0 0 (dedupTiles (extractTiles img ts (imgW / ts) (imgH / ts))))⟩ := by
  unfold run
  rw [if_neg hts, if_neg (not_not_intro hw), if_neg (not_not_intro hh)]

lemma extractTiles_zero_xc (img : Nat → Nat → Color) (ts : Nat) :
    ∀ yc, extractTiles img ts 0 yc = []
  | 0 => by simp [extractTiles]
  | yc + 1 => by
    rw [extractTiles_succ]
    simp [extractTiles_zero_xc img ts yc]

lemma findDims_zero (ts : Nat) : findDims 0 ts = (0, ts) := by
  simp [findDims]

/-! ## Remaining helpers -/

lemma countTile_eq_zero_of_not_mem {t : Tile} :
    ∀ {l : List Tile}, t ∉ l → countTile t l = 0
  | [], _ => rfl
  | u :: rest, h => by
    unfold countTile
    rw [if_neg (fun he => h (by rw [← he]; exact List.mem_cons_self u rest)),
      countTile_eq_zero_of_not_mem (fun hr => h (List.mem_cons_of_mem u hr))]

lemma countTile_eq_one_of_nodup_mem :
    ∀ {l : List Tile}, l.Nodup → ∀ {t : Tile}, t ∈ l → countTile t l = 1
  | [], _, t, h => absurd h (List.not_mem_nil t)
  | u :: rest, hnd, t, h => by
    unfold countTile
    have hnd2 := List.pairwise_cons.mp hnd
    by_cases hut : u = t
    · rw [if_pos hut]
      subst hut
      rw [countTile_eq_zero_of_not_mem (fun hr => (hnd2.1 u hr) rfl)]
    · rw [if_neg hut]
      have ht : t ∈ rest := by
        rcases List.mem_cons.mp h with rfl | hr
        · exact absurd rfl hut
        · exact hr
      rw [countTile_eq_one_of_nodup_mem hnd2.2 ht]

lemma cell_bounds (n k j ts i : Nat) (hts : 0 < ts) (hk : 0 < k)
    (hkj : n ≤ k * j) (hi : i < n) :
    (i % k) * ts + ts ≤ k * ts ∧ (i / k) * ts + ts ≤ j * ts := by
  constructor
  · have h1 : i % k + 1 ≤ k := Nat.mod_lt i hk
    calc (i % k) * ts + ts = (i % k + 1) * ts := by ring
    _ ≤ k * ts := Nat.mul_le_mul_right ts h1
  · have h2 : i / k < j := (Nat.div_lt_iff_lt_mul hk).mpr
      (Nat.lt_of_lt_of_le hi (by rw [Nat.mul_comm]; exact hkj))
    calc (i / k) * ts + ts = (i / k + 1) * ts := by ring
    _ ≤ j * ts := Nat.mul_le_mul_right ts h2

lemma cell_disjoint (k ts : Nat) (hts : 0 < ts) {i j px py : Nat}
    (hne : i ≠ j)
    (h1 : (i % k) * ts ≤ px) (h2 : px < (i % k) * ts + ts)
    (h3 : (i / k) * ts ≤ py) (h4 : py < (i / k) * ts + ts)
    (h5 : (j % k) * ts ≤ px) (h6 : px < (j % k) * ts + ts)
    (h7 : (j / k) * ts ≤ py) (h8 : py < (j / k) * ts + ts) : False := by
  have hx := grid_cell_eq ts hts h1 h2 h5 h6
  have hy := grid_cell_eq ts hts h3 h4 h7 h8
  have hdi := Nat.div_add_mod i k
  have hdj := Nat.div_add_mod j k
  rw [← hx, ← hy] at hdj
  omega

/-- If the `i`-th placement is `(x, y, t)`, the tile fits the canvas, and no
other placement's region contains the probed point, then the final canvas at
`(x + dx, y + dy)` shows the tile's pixel `(dx, dy)`. -/
lemma foldl_overlay_at_placement (ts w h : Nat) (l : List (Nat × Nat × Tile))
    (i x y : Nat) (t : Tile) (hi : l[i]? = some (x, y, t))
    (dx dy : Nat) (hdx : dx < ts) (hdy : dy < ts)
    (hxw : x + ts ≤ w) (hyh : y + ts ≤ h)
    (hdisj : ∀ jj x2 y2 t2, l[jj]? = some (x2, y2, t2) → jj ≠ i →
      ¬(x2 ≤ x + dx ∧ x + dx < x2 + ts ∧ y2 ≤ y + dy ∧ y + dy < y2 + ts)) :
    compositeCanvas ts w h l (x + dx) (y + dy) = tilePixel t dx dy := by
  have hilen : i < l.length := by
    by_contra hge
    rw [List.getElem?_eq_none (Nat.le_of_not_lt hge)] at hi
    exact Option.noConfusion hi
  have hgi : l[i] = (x, y, t) := by
    have h2 := List.getElem?_eq_getElem hilen
    rw [hi] at h2
    exact Option.some.inj h2.symm
  have hsplit : l = l.take i ++ (x, y, t) :: l.drop (i + 1) := by
    conv_lhs => rw [← List.take_append_drop i l]
    rw [List.drop_eq_getElem_cons hilen, hgi]
  have hout2 : ∀ p ∈ l.drop (i + 1),
      ¬(p.1 ≤ x + dx ∧ x + dx < p.1 + ts ∧
        p.2.1 ≤ y + dy ∧ y + dy < p.2.1 + ts) := by
    intro p hp hreg
    obtain ⟨jj, hjj⟩ := List.mem_iff_getElem?.mp hp
    rw [List.getElem?_drop] at hjj
    exact hdisj (i + 1 + jj) p.1 p.2.1 p.2.2 hjj (by omega) hreg
  unfold compositeCanvas
  rw [hsplit, List.foldl_append, List.foldl_cons]
  rw [foldl_overlayTile_untouched ts w h (l.drop (i + 1)) _ (x + dx) (y + dy)
    hout2]
  show overlayTile ts w h _ x y t (x + dx) (y + dy) = tilePixel t dx dy
  unfold overlayTile
  rw [if_pos ⟨Nat.lt_of_lt_of_le (Nat.add_lt_add_left hdx x) hxw,
    Nat.lt_of_lt_of_le (Nat.add_lt_add_left hdy y) hyh,
    Nat.le_add_right x dx, Nat.add_lt_add_left hdx x,
    Nat.le_add_right y dy, Nat.add_lt_add_left hdy y⟩]
  rw [Nat.add_sub_cancel_left, Nat.add_sub_cancel_left]

/-- The `i`-th placement of the pipeline's compositing, in closed form: the
`i`-th distinct tile sits at tile column `i % (width / ts)` and tile row
`i / (width / ts)`. -/
lemma placements_formula (tiles : List Tile) (ts : Nat) (hts : 0 < ts)
    (hn : 1 ≤ tiles.length) (i : Nat) :
    (placeTiles ts (findDims (tiles.length * ts) ts).1 0 0 tiles)[i]? =
      tiles[i]?.map (fun t =>
        ((i % ((findDims (tiles.length * ts) ts).1 / ts)) * ts,
         (i / ((findDims (tiles.length * ts) ts).1 / ts)) * ts, t)) := by
  obtain ⟨hk, hwd, hhd, hkj⟩ := packing_facts tiles.length ts hts hn
  have h := placeTiles_zero_getElem? ts
    ((findDims (tiles.length * ts) ts).1 / ts) hts hk tiles i
  rw [hwd] at h
  exact h

/-! ## Claim theorems -/

/-- C1: for every source image whose width and height are exact multiples of
`tile_size > 0`, the deduplicated tile list contains no two pixel-equal tiles
(it is duplicate-free, and pixelwise-equal members are equal), every tile of
the row-major extracted sequence is pixel-equal to exactly one element of the
list (it occurs in the list with count one), and the list's order is the
order of first occurrence when scanning the extracted tiles top-to-bottom,
left-to-right (first-occurrence indices are strictly increasing along the
list). -/
theorem claim_C1_dedup_first_occurrence (img : Nat → Nat → Color)
    (w h ts : Nat) (hts : 0 < ts) (hw : w % ts = 0) (hh : h % ts = 0) :
    (dedupTiles (extractTiles img ts (w / ts) (h / ts))).Nodup ∧
    (∀ t ∈ dedupTiles (extractTiles img ts (w / ts) (h / ts)),
      ∀ u ∈ dedupTiles (extractTiles img ts (w / ts) (h / ts)),
      (∀ x, x < ts → ∀ y, y < ts → tilePixel t x y = tilePixel u x y) →
        t = u) ∧
    (∀ t ∈ extractTiles img ts (w / ts) (h / ts),
      countTile t (dedupTiles (extractTiles img ts (w / ts) (h / ts))) = 1) ∧
    (dedupTiles (extractTiles img ts (w / ts) (h / ts))).Pairwise
      (fun a b => firstIdx a (extractTiles img ts (w / ts) (h / ts)) <
        firstIdx b (extractTiles img ts (w / ts) (h / ts))) := by
  refine ⟨dedupTiles_nodup _, ?_, ?_, dedupTiles_pairwise_firstIdx _⟩
  · intro t ht u hu hpix
    obtain ⟨a, b, ha, hb, rfl⟩ := mem_extractTiles (mem_dedupTiles.mp ht)
    obtain ⟨c, d, hc, hd, rfl⟩ := mem_extractTiles (mem_dedupTiles.mp hu)
    refine extractTile_eq_of_pixels img ts ?_
    intro x hx y hy
    have hp := hpix x hx y hy
    rwa [tilePixel_extractTile img ts a b x y hx hy,
      tilePixel_extractTile img ts c d x y hx hy] at hp
  · intro t ht
    exact countTile_eq_one_of_nodup_mem (dedupTiles_nodup _)
      (mem_dedupTiles.mpr ht)

/-- Witness for C1 on a 2×1 image with `tile_size = 1`. -/
theorem claim_C1_dedup_first_occurrence_witness :
    0 < 1 ∧ 2 % 1 = 0 ∧ 1 % 1 = 0 ∧
    countTile [[0]] (dedupTiles
      (extractTiles (fun x _ => x) 1 (2 / 1) (1 / 1))) = 1 :=
  ⟨by decide, by decide, by decide,
    (claim_C1_dedup_first_occurrence (fun x _ => x) 2 1 1
      (by decide) (by decide) (by decide)).2.2.1 [[0]] (by decide)⟩

/-- C2: for every source grid whose width and height are exact multiples of
`tile_size > 0`, the extracted tile sequence has length
`(width/tile_size) * (height/tile_size)`, is ordered row-major (the `i`-th
tile is the one at tile column `i % (width/tile_size)` and tile row
`i / (width/tile_size)`), each tile is `tile_size × tile_size`, and the
pixel `(x, y)` of the tile at tile coordinates `(a, b)` is the source pixel
`(x + a·tile_size, y + b·tile_size)`.  The source is only read: the
embedding of the extraction is a pure function of the pixel accessor. -/
theorem claim_C2_extraction (img : Nat → Nat → Color) (w h ts : Nat)
    (hts : 0 < ts) (hw : w % ts = 0) (hh : h % ts = 0) :
    (extractTiles img ts (w / ts) (h / ts)).length = (w / ts) * (h / ts) ∧
    (∀ i, i < (w / ts) * (h / ts) →
      (extractTiles img ts (w / ts) (h / ts))[i]? =
        some (extractTile img ts (i % (w / ts)) (i / (w / ts)))) ∧
    (∀ a b : Nat, (extractTile img ts a b).length = ts ∧
      ∀ row ∈ extractTile img ts a b, row.length = ts) ∧
    (∀ a b x y : Nat, x < ts → y < ts →
      tilePixel (extractTile img ts a b) x y =
        img (x + a * ts) (y + b * ts)) := by
  refine ⟨extractTiles_length img ts (w / ts) (h / ts), ?_, ?_, ?_⟩
  · intro i hi
    exact extractTiles_getElem? img ts (w / ts) (h / ts) i hi
  · intro a b
    exact ⟨extractTile_length img ts a b, extractTile_row_length img ts a b⟩
  · intro a b x y hx hy
    exact tilePixel_extractTile img ts a b x y hx hy

/-- Witness for C2 on a 2×1 image with `tile_size = 1`. -/
theorem claim_C2_extraction_witness :
    0 < 1 ∧ 2 % 1 = 0 ∧ 1 % 1 = 0 ∧
    (extractTiles (fun x _ => x + 3) 1 (2 / 1) (1 / 1)).length =
      (2 / 1) * (1 / 1) :=
  ⟨by decide, by decide, by decide,
    (claim_C2_extraction (fun x _ => x + 3) 2 1 1
      (by decide) (by decide) (by decide)).1⟩

/-- C3: for `n ≥ 1` distinct tiles and `tile_size ts > 0`, with
`pixel_budget = n·ts`, the scan domain is exactly the pairs with both
components in `0..pixel_budget`, and the search result has the minimum
`width + height` among the fallback `(pixel_budget, ts)` and all flipped
good candidates; it either is the fallback (so the fallback wins all ties)
or is the flip of a good candidate that strictly beats the fallback and all
good candidates occurring earlier in the `candidate_height`-outer,
`candidate_width`-inner scan. -/
theorem claim_C3_dimension_search (n ts : Nat) (hn : 1 ≤ n) (hts : 0 < ts) :
    (∀ c : Nat × Nat, c ∈ scanList (n * ts) ↔
      c.1 < n * ts ∧ c.2 < n * ts) ∧
    (findDims (n * ts) ts).1 + (findDims (n * ts) ts).2 ≤ n * ts + ts ∧
    (∀ c ∈ scanList (n * ts), goodCand (n * ts) ts c →
      (findDims (n * ts) ts).1 + (findDims (n * ts) ts).2 ≤ c.2 + c.1) ∧
    (findDims (n * ts) ts = (n * ts, ts) ∨
      ∃ l1 c l2, scanList (n * ts) = l1 ++ c :: l2 ∧
        goodCand (n * ts) ts c ∧ findDims (n * ts) ts = (c.2, c.1) ∧
        (findDims (n * ts) ts).1 + (findDims (n * ts) ts).2 < n * ts + ts ∧
        ∀ d ∈ l1, goodCand (n * ts) ts d →
          (findDims (n * ts) ts).1 + (findDims (n * ts) ts).2 <
            d.2 + d.1) := by
  obtain ⟨h1, h2, h3⟩ :=
    dimSearch_spec (n * ts) ts (scanList (n * ts)) (n * ts, ts)
  rw [← findDims_eq_foldl_scanList] at h1 h2 h3
  exact ⟨fun c => mem_scanList (n * ts) c, h1, h2, h3⟩

/-- Witness for C3 at `n = 4`, `ts = 8` (where a candidate beats the
fallback: the result is `(16, 16)` with sum `32 < 40`). -/
theorem claim_C3_dimension_search_witness :
    1 ≤ 4 ∧ 0 < 8 ∧
    (findDims (4 * 8) 8).1 + (findDims (4 * 8) 8).2 ≤ 4 * 8 + 8 :=
  ⟨by decide, by decide, (claim_C3_dimension_search 4 8
    (by decide) (by decide)).2.1⟩

/-- C4: whenever the pipeline succeeds (tile size positive, both image
dimensions divisible), the output canvas's width and height are exact
multiples of `tile_size` — including the degenerate case of zero distinct
tiles, where the fallback `(0, ts)` is kept. -/
theorem claim_C4_canvas_alignment (imgW imgH : Nat) (img : Nat → Nat → Color)
    (ts : Nat) (out : RunOutput) (hts : 0 < ts)
    (hok : run imgW imgH img ts = Except.ok out) :
    out.width % ts = 0 ∧ out.height % ts = 0 := by
  have hts0 : ts ≠ 0 := Nat.pos_iff_ne_zero.mp hts
  by_cases hw : imgW % ts = 0
  · by_cases hh : imgH % ts = 0
    · rw [run_ok imgW imgH img ts hts0 hw hh] at hok
      injection hok with h2
      subst h2
      exact ⟨(findDims_props _ ts).1, (findDims_props _ ts).2.1⟩
    · rw [run_height_error imgW imgH img ts hts0 hw hh] at hok
      exact Except.noConfusion hok
  · rw [run_width_error imgW imgH img ts hts0 hw] at hok
    exact Except.noConfusion hok

/-- Witness for C4 on a uniform 8×8 image with `tile_size = 8` (the output
record is the one `run_ok` exhibits; its width and height are the components
of the dimension search). -/
theorem claim_C4_canvas_alignment_witness :
    0 < 8 ∧
    (findDims ((dedupTiles (extractTiles (fun _ _ => 1) 8 (8 / 8)
      (8 / 8))).length * 8) 8).1 % 8 = 0 ∧
    (findDims ((dedupTiles (extractTiles (fun _ _ => 1) 8 (8 / 8)
      (8 / 8))).length * 8) 8).2 % 8 = 0 :=
  ⟨by decide, claim_C4_canvas_alignment 8 8 (fun _ _ => 1) 8 _ (by decide)
    (run_ok 8 8 (fun _ _ => 1) 8 (by decide) (by decide) (by decide))⟩

/-- C5: for every distinct-tile list of length `n ≥ 1` and the dimensions
chosen by the search, the row-major compositing places tile `i` at
`((i mod (width/ts))·ts, (i div (width/ts))·ts)`; every tile lies within the
canvas (`x + ts ≤ width` and `y + ts ≤ height`), and no two tiles' placed
regions share a pixel. -/
theorem claim_C5_row_major_packing (tiles : List Tile) (ts : Nat)
    (hts : 0 < ts) (hn : 1 ≤ tiles.length) :
    (∀ i t, tiles[i]? = some t →
      (placeTiles ts (findDims (tiles.length * ts) ts).1 0 0 tiles)[i]? =
        some ((i % ((findDims (tiles.length * ts) ts).1 / ts)) * ts,
          (i / ((findDims (tiles.length * ts) ts).1 / ts)) * ts, t)) ∧
    (∀ i, i < tiles.length →
      (i % ((findDims (tiles.length * ts) ts).1 / ts)) * ts + ts ≤
        (findDims (tiles.length * ts) ts).1 ∧
      (i / ((findDims (tiles.length * ts) ts).1 / ts)) * ts + ts ≤
        (findDims (tiles.length * ts) ts).2) ∧
    (∀ i j px py, i < tiles.length → j < tiles.length → i ≠ j →
      ¬((i % ((findDims (tiles.length * ts) ts).1 / ts)) * ts ≤ px ∧
        px < (i % ((findDims (tiles.length * ts) ts).1 / ts)) * ts + ts ∧
        (i / ((findDims (tiles.length * ts) ts).1 / ts)) * ts ≤ py ∧
        py < (i / ((findDims (tiles.length * ts) ts).1 / ts)) * ts + ts ∧
        (j % ((findDims (tiles.length * ts) ts).1 / ts)) * ts ≤ px ∧
        px < (j % ((findDims (tiles.length * ts) ts).1 / ts)) * ts + ts ∧
        (j / ((findDims (tiles.length * ts) ts).1 / ts)) * ts ≤ py ∧
        py < (j / ((findDims (tiles.length * ts) ts).1 / ts)) * ts + ts)) := by
  obtain ⟨hk, hwd, hhd, hkj⟩ := packing_facts tiles.length ts hts hn
  refine ⟨?_, ?_, ?_⟩
  · intro i t hit
    rw [placements_formula tiles ts hts hn i, hit]
    rfl
  · intro i hi
    have hb := cell_bounds tiles.length
      ((findDims (tiles.length * ts) ts).1 / ts)
      ((findDims (tiles.length * ts) ts).2 / ts) ts i hts hk hkj hi
    rw [hwd, hhd] at hb
    exact hb
  · intro i j px py hi hj hne hreg
    exact cell_disjoint ((findDims (tiles.length * ts) ts).1 / ts) ts hts hne
      hreg.1 hreg.2.1 hreg.2.2.1 hreg.2.2.2.1 hreg.2.2.2.2.1
      hreg.2.2.2.2.2.1 hreg.2.2.2.2.2.2.1 hreg.2.2.2.2.2.2.2

/-- Witness for C5 with a single 1×1 tile. -/
theorem claim_C5_row_major_packing_witness :
    0 < 1 ∧ 1 ≤ List.length [[[5]]] ∧
    (placeTiles 1 (findDims (List.length [[[5]]] * 1) 1).1 0 0 [[[5]]])[0]? =
      some ((0 % ((findDims (List.length [[[5]]] * 1) 1).1 / 1)) * 1,
        (0 / ((findDims (List.length [[[5]]] * 1) 1).1 / 1)) * 1, [[5]]) :=
  ⟨by decide, by decide,
    (claim_C5_row_major_packing [[[5]]] 1 (by decide) (by decide)).1
      0 [[5]] (by decide)⟩

/-- C6: for every tile placed by the compositing at canvas position `(x, y)`
and every in-tile coordinate `(dx, dy)` with `dx, dy < ts`, the final canvas
pixel at `(x + dx, y + dy)` equals the tile's pixel at `(dx, dy)` — the tile
pixel replaces the destination for every color value (the overlay is
modelled from the spec as full replacement, see `overlayTile`). -/
theorem claim_C6_composited_pixels (tiles : List Tile) (ts : Nat)
    (hts : 0 < ts) (hn : 1 ≤ tiles.length) :
    ∀ (i x y : Nat) (t : Tile),
      (placeTiles ts (findDims (tiles.length * ts) ts).1 0 0 tiles)[i]? =
        some (x, y, t) →
      ∀ dx dy, dx < ts → dy < ts →
        compositeCanvas ts (findDims (tiles.length * ts) ts).1
          (findDims (tiles.length * ts) ts).2
          (placeTiles ts (findDims (tiles.length * ts) ts).1 0 0 tiles)
          (x + dx) (y + dy) = tilePixel t dx dy := by
  obtain ⟨hk, hwd, hhd, hkj⟩ := packing_facts tiles.length ts hts hn
  intro i x y t hplace dx dy hdx hdy
  have hform := placements_formula tiles ts hts hn i
  rw [hplace] at hform
  cases htl : tiles[i]? with
  | none =>
    rw [htl] at hform
    exact Option.noConfusion hform
  | some t0 =>
    rw [htl] at hform
    simp only [Option.map_some'] at hform
    injection hform with htup
    injection htup with hx hrest
    injection hrest with hy ht0
    subst hx
    subst hy
    subst ht0
    have hilen : i < tiles.length := by
      by_contra hge
      rw [List.getElem?_eq_none (Nat.le_of_not_lt hge)] at htl
      exact Option.noConfusion htl
    have hb := cell_bounds tiles.length
      ((findDims (tiles.length * ts) ts).1 / ts)
      ((findDims (tiles.length * ts) ts).2 / ts) ts i hts hk hkj hilen
    rw [hwd, hhd] at hb
    refine foldl_overlay_at_placement ts _ _ _ i _ _ t hplace dx dy hdx hdy
      hb.1 hb.2 ?_
    intro jj x2 y2 t2 hjj hne hreg
    have hform2 := placements_formula tiles ts hts hn jj
    rw [hjj] at hform2
    cases htl2 : tiles[jj]? with
    | none =>
      rw [htl2] at hform2
      exact Option.noConfusion hform2
    | some u =>
      rw [htl2] at hform2
      simp only [Option.map_some'] at hform2
      injection hform2 with htup2
      injection htup2 with hx2 hrest2
      injection hrest2 with hy2 ht2
      subst hx2
      subst hy2
      exact cell_disjoint ((findDims (tiles.length * ts) ts).1 / ts) ts hts
        (Ne.symm hne)
        (Nat.le_add_right _ dx) (Nat.add_lt_add_left hdx _)
        (Nat.le_add_right _ dy) (Nat.add_lt_add_left hdy _)
        hreg.1 hreg.2.1 hreg.2.2.1 hreg.2.2.2

/-- Witness for C6 with a single 1×1 tile probed at its only pixel. -/
theorem claim_C6_composited_pixels_witness :
    0 < 1 ∧ 1 ≤ List.length [[[7]]] ∧
    compositeCanvas 1 (findDims (List.length [[[7]]] * 1) 1).1
      (findDims (List.length [[[7]]] * 1) 1).2
      (placeTiles 1 (findDims (List.length [[[7]]] * 1) 1).1 0 0 [[[7]]])
      (0 + 0) (0 + 0) = tilePixel [[7]] 0 0 :=
  ⟨by decide, by decide,
    claim_C6_composited_pixels [[[7]]] 1 (by decide) (by decide)
      0 0 0 [[7]] (by decide) 0 0 (by decide) (by decide)⟩

/-- C7: every canvas pixel lying in no placed tile's `ts × ts` region keeps
the canvas's initial default value: the compositing fold writes only inside
placed tile regions. -/
theorem claim_C7_untouched_pixels_default (ts w h : Nat)
    (placements : List (Nat × Nat × Tile)) (px py : Nat)
    (hout : ∀ p ∈ placements,
      ¬(p.1 ≤ px ∧ px < p.1 + ts ∧ p.2.1 ≤ py ∧ py < p.2.1 + ts)) :
    compositeCanvas ts w h placements px py = defaultColor := by
  unfold compositeCanvas
  exact foldl_overlayTile_untouched ts w h placements _ px py hout

/-- Witness for C7: the pixel `(1, 1)` of a 1×1-tile placement at the
origin is untouched. -/
theorem claim_C7_untouched_pixels_default_witness :
    compositeCanvas 1 2 2 [(0, 0, [[2]])] 1 1 = defaultColor :=
  claim_C7_untouched_pixels_default 1 2 2 [(0, 0, [[2]])] 1 1 (by decide)

/-- C8: for `tile_size > 0`, the pipeline produces an output exactly when
both image dimensions are multiples of the tile size; a width violation is
reported as the width error (also when both axes violate, since the width
check runs first), and a height-only violation as the height error.  The
embedding returns the error before any extraction, deduplication, packing or
compositing expression is evaluated (see `run`), and an error excludes any
output. -/
theorem claim_C8_dimension_errors (imgW imgH : Nat) (img : Nat → Nat → Color)
    (ts : Nat) (hts : 0 < ts) :
    ((∃ out, run imgW imgH img ts = Except.ok out) ↔
      (imgW % ts = 0 ∧ imgH % ts = 0)) ∧
    (imgW % ts ≠ 0 →
      run imgW imgH img ts = Except.error RunError.widthNotMultiple) ∧
    (imgW % ts = 0 → imgH % ts ≠ 0 →
      run imgW imgH img ts = Except.error RunError.heightNotMultiple) := by
  have hts0 : ts ≠ 0 := Nat.pos_iff_ne_zero.mp hts
  refine ⟨⟨?_, ?_⟩, ?_, ?_⟩
  · rintro ⟨out, hok⟩
    by_cases hw : imgW % ts = 0
    · by_cases hh : imgH % ts = 0
      · exact ⟨hw, hh⟩
      · rw [run_height_error imgW imgH img ts hts0 hw hh] at hok
        exact Except.noConfusion hok
    · rw [run_width_error imgW imgH img ts hts0 hw] at hok
      exact Except.noConfusion hok
  · rintro ⟨hw, hh⟩
    exact ⟨_, run_ok imgW imgH img ts hts0 hw hh⟩
  · intro hw
    exact run_width_error imgW imgH img ts hts0 hw
  · intro hw hh
    exact run_height_error imgW imgH img ts hts0 hw hh

/-- Witness for C8: a 10×8 image with `tile_size = 8` fails with the width
error (spec Scenario C). -/
theorem claim_C8_dimension_errors_witness :
    0 < 8 ∧
    run 10 8 (fun _ _ => 0) 8 = Except.error RunError.widthNotMultiple :=
  ⟨by decide, (claim_C8_dimension_errors 10 8 (fun _ _ => 0) 8
    (by decide)).2.1 (by decide)⟩

/-- C9 counterexample: with `tile_size = 0` the pipeline does not signal a
returned `InvalidTileSize` error — it hits the `%`-by-zero panic in the
width check (main.rs 37), modelled by `RunError.divByZeroPanic`: the process
crashes, and no error value of any kind (no such variant even exists in the
code) is returned to the caller. -/
theorem claim_C9_invalid_tile_size_counterexample :
    run 8 8 (fun _ _ => 0) 0 = Except.error RunError.divByZeroPanic :=
  run_ts_zero 8 8 (fun _ _ => 0)

/-- C9 amended: for every input image, if `tile_size = 0` the pipeline
panics with a remainder-by-zero at the width check (a crash producing no
output), rather than returning an `InvalidTileSize` error — the code has no
such guard, as the spec's own hardening note concedes. -/
theorem claim_C9_tile_size_zero_panics (imgW imgH : Nat)
    (img : Nat → Nat → Color) :
    run imgW imgH img 0 = Except.error RunError.divByZeroPanic :=
  run_ts_zero imgW imgH img

/-- C10: for `tile_size > 0` and a zero-width source image (so zero distinct
tiles), the pipeline does not crash: the pixel budget is `0`, the search
loops are empty, the fallback `(0, ts)` is kept, and the result is a
well-formed canvas of zero area with no tiles composited onto it. -/
theorem claim_C10_empty_tileset (imgH : Nat) (img : Nat → Nat → Color)
    (ts : Nat) (hts : 0 < ts) (hh : imgH % ts = 0) :
    ∃ out, run 0 imgH img ts = Except.ok out ∧
      out.distinctTiles = [] ∧ out.width = 0 ∧ out.height = ts ∧
      out.width * out.height = 0 ∧ out.placements = [] ∧
      ∀ px py, out.canvas px py = defaultColor := by
  have hres : dedupTiles (extractTiles img ts (0 / ts) (imgH / ts)) = [] := by
    rw [Nat.zero_div, extractTiles_zero_xc]
    rfl
  refine ⟨⟨0, ts, [], [], fun _ _ => defaultColor⟩, ?_, rfl, rfl, rfl,
    by simp, rfl, fun _ _ => rfl⟩
  rw [run_ok 0 imgH img ts (Nat.pos_iff_ne_zero.mp hts) (Nat.zero_mod ts) hh,
    hres, List.length_nil, Nat.zero_mul, findDims_zero]
  rfl

/-- Witness for C10: a zero-width image of height 8 with `tile_size = 8`
succeeds. -/
theorem claim_C10_empty_tileset_witness :
    0 < 8 ∧ 8 % 8 = 0 ∧ (run 0 8 (fun _ _ => 0) 8).isOk = true := by
  refine ⟨by decide, by decide, ?_⟩
  obtain ⟨out, hok, -, -, -, -, -, -⟩ :=
    claim_C10_empty_tileset 8 (fun _ _ => 0) 8 (by decide) (by decide)
  rw [hok]
  rfl

end Png2Tileset
